import Mathlib

/-!
Verification of the MyArbitrager low-latency ingest-to-signal core.

The definitions below are a shallow embedding of the C++ sources:
  * `src/src/arbitrage_engine.cpp`  — detection pass and symbol normalisation
  * `src/src/latency_test.cpp`      — `MPSCRingBuffer` (Vyukov-style ring)
  * `src/src/queue_latency_tracker.hpp` — `QueueLatencyTracker`
  * `timing.hpp`                    — `TSCCalibrator` conversions

C++ strings are modelled as lists of byte values (`List Nat`), prices and
quantities as rationals, machine integers as `Nat` with explicit `% 2 ^ 64`
where 64-bit wraparound matters, and timestamps as `Int`.
-/

namespace Arb

/-- C++ `::toupper` on an ASCII byte (used via `std::transform` in
`ArbitrageEngine::normalize_symbol`): maps `a`..`z` (97..122) to `A`..`Z`,
leaves every other byte unchanged. -/
def cppToupper (b : Nat) : Nat := if 97 ≤ b ∧ b ≤ 122 then b - 32 else b

/-- Byte string of an ASCII string literal (only used to build concrete
inputs for witnesses and counterexamples). -/
def bytes (s : String) : List Nat := s.toList.map Char.toNat

/-- The byte string `"USDT"`. -/
def usdtS : List Nat := [85, 83, 68, 84]

/-- The byte string `"USD"`. -/
def usdS : List Nat := [85, 83, 68]

/-- Suffix- and dash-handling of `ArbitrageEngine::normalize_symbol`, applied
to the already-uppercased byte string `u`:
if `u` contains `'-'` (byte 45) truncate at the first dash
(`substr(0, find('-'))`, i.e. `takeWhile (· ≠ 45)`); else if
`u.length() > 4 && u.substr(u.length()-4) == "USDT"` drop that suffix; else if
`u.length() > 3 && u.substr(u.length()-3) == "USD"` drop that suffix; else
leave unchanged. -/
def normalize_core (u : List Nat) : List Nat :=
  if 45 ∈ u then u.takeWhile (fun c => c ≠ 45)
  else if 4 < u.length ∧ u.drop (u.length - 4) = usdtS then u.take (u.length - 4)
  else if 3 < u.length ∧ u.drop (u.length - 3) = usdS then u.take (u.length - 3)
  else u

/-- `ArbitrageEngine::normalize_symbol` (arbitrage_engine.cpp:265-285):
uppercase the symbol, then apply the dash/suffix rules. -/
def normalize_symbol (s : List Nat) : List Nat := normalize_core (s.map cppToupper)

/-- Modelled from the spec: the rule set of §4.4 "Symbol normalisation",
taken at its word — rules 3 and 4 strip the `USDT`/`USD` suffix whenever the
uppercased symbol *ends in* that suffix, with no requirement that the symbol
be strictly longer than the suffix. Comparison definition for claim C4. -/
def spec_normalize_core (u : List Nat) : List Nat :=
  if 45 ∈ u then u.takeWhile (fun c => c ≠ 45)
  else if usdtS <:+ u then u.take (u.length - 4)
  else if usdS <:+ u then u.take (u.length - 3)
  else u

/-- Modelled from the spec: full §4.4 rule set (uppercase, then rules 2-5). -/
def spec_normalize (s : List Nat) : List Nat := spec_normalize_core (s.map cppToupper)

lemma cppToupper_idem (b : Nat) : cppToupper (cppToupper b) = cppToupper b := by
  unfold cppToupper
  split_ifs <;> omega

lemma map_cppToupper_map (s : List Nat) :
    (s.map cppToupper).map cppToupper = s.map cppToupper := by
  rw [List.map_map]
  exact List.map_congr_left fun a _ => cppToupper_idem a

lemma map_fixed_takeWhile (p : Nat → Bool) :
    ∀ (l : List Nat), l.map cppToupper = l →
      (l.takeWhile p).map cppToupper = l.takeWhile p := by
  intro l
  induction l with
  | nil => intro _; rfl
  | cons a t ih =>
    intro h
    simp only [List.map_cons, List.cons.injEq] at h
    rw [List.takeWhile_cons]
    split
    · simp [h.1, ih h.2]
    · rfl

lemma map_fixed_take (n : Nat) (l : List Nat) (h : l.map cppToupper = l) :
    (l.take n).map cppToupper = l.take n := by
  rw [List.map_take, h]

/-- The result of `normalize_symbol` is unchanged by a further uppercase pass. -/
lemma normalize_symbol_map_fixed (s : List Nat) :
    (normalize_symbol s).map cppToupper = normalize_symbol s := by
  unfold normalize_symbol normalize_core
  have hu := map_cppToupper_map s
  split_ifs
  · exact map_fixed_takeWhile _ _ hu
  · exact map_fixed_take _ _ hu
  · exact map_fixed_take _ _ hu
  · exact hu

/-- The result of `normalize_symbol` never contains a dash (byte 45). -/
lemma normalize_symbol_no_dash (s : List Nat) : 45 ∉ normalize_symbol s := by
  unfold normalize_symbol normalize_core
  split_ifs with h1 h2 h3
  · intro hmem
    have := List.mem_takeWhile_imp hmem
    simp at this
  · intro hmem
    exact h1 (List.mem_of_mem_take hmem)
  · intro hmem
    exact h1 (List.mem_of_mem_take hmem)
  · exact h1

lemma normalize_core_eq_spec (u : List Nat) (h1 : u ≠ usdtS) (h2 : u ≠ usdS) :
    normalize_core u = spec_normalize_core u := by
  unfold normalize_core spec_normalize_core
  by_cases hd : 45 ∈ u
  · rw [if_pos hd, if_pos hd]
  · rw [if_neg hd, if_neg hd]
    have l4 : usdtS.length = 4 := rfl
    have l3 : usdS.length = 3 := rfl
    by_cases h4 : usdtS <:+ u
    · have hlen : 4 ≤ u.length := by rw [← l4]; exact h4.length_le
      have hdrop : u.drop (u.length - 4) = usdtS := by
        have h := List.suffix_iff_eq_drop.mp h4
        rw [l4] at h
        exact h.symm
      have hgt : 4 < u.length := by
        rcases Nat.lt_or_ge 4 u.length with h | h
        · exact h
        · have he : usdtS.length = u.length := by omega
          exact absurd (List.IsSuffix.eq_of_length h4 he).symm h1
      rw [if_pos ⟨hgt, hdrop⟩, if_pos h4]
    · have hnot : ¬(4 < u.length ∧ u.drop (u.length - 4) = usdtS) := by
        rintro ⟨hgt, hdrop⟩
        refine h4 (List.suffix_iff_eq_drop.mpr ?_)
        rw [l4]
        exact hdrop.symm
      rw [if_neg hnot, if_neg h4]
      by_cases h3 : usdS <:+ u
      · have hlen : 3 ≤ u.length := by rw [← l3]; exact h3.length_le
        have hdrop : u.drop (u.length - 3) = usdS := by
          have h := List.suffix_iff_eq_drop.mp h3
          rw [l3] at h
          exact h.symm
        have hgt : 3 < u.length := by
          rcases Nat.lt_or_ge 3 u.length with h | h
          · exact h
          · have he : usdS.length = u.length := by omega
            exact absurd (List.IsSuffix.eq_of_length h3 he).symm h2
        rw [if_pos ⟨hgt, hdrop⟩, if_pos h3]
      · have hnot3 : ¬(3 < u.length ∧ u.drop (u.length - 3) = usdS) := by
          rintro ⟨hgt, hdrop⟩
          refine h3 (List.suffix_iff_eq_drop.mpr ?_)
          rw [l3]
          exact hdrop.symm
        rw [if_neg hnot3, if_neg h3]

/-- C4 counterexample: on the input `"USDT"` the code and the spec's rule set
disagree — the code's length guard (`length > 4`) leaves `"USDT"` unchanged,
while rule 3 as written strips the suffix, yielding the empty string. -/
theorem normalize_symbol_spec_rules_counterexample :
    normalize_symbol (bytes "USDT") ≠ spec_normalize (bytes "USDT") := by decide

/-- C4 (amended): `normalize_symbol` agrees with the spec's rule set on every
input except those whose uppercased form is exactly `"USDT"` or `"USD"` — the
code strips a suffix only from symbols strictly longer than the suffix. -/
theorem normalize_symbol_refines_spec_rules (s : List Nat)
    (h1 : s.map cppToupper ≠ usdtS) (h2 : s.map cppToupper ≠ usdS) :
    normalize_symbol s = spec_normalize s :=
  normalize_core_eq_spec _ h1 h2

theorem normalize_symbol_refines_spec_rules_witness :
    (bytes "BTCUSDT").map cppToupper ≠ usdtS ∧
      (bytes "BTCUSDT").map cppToupper ≠ usdS ∧
      normalize_symbol (bytes "BTCUSDT") = spec_normalize (bytes "BTCUSDT") :=
  ⟨by decide, by decide, normalize_symbol_refines_spec_rules _ (by decide) (by decide)⟩

/-- C5 counterexample: normalisation is not idempotent. `"AUSDT-B"` is first
truncated at the dash to `"AUSDT"`; a second pass strips the now-exposed
`"USDT"` suffix, giving `"A"`. -/
theorem normalize_symbol_not_idempotent :
    normalize_symbol (normalize_symbol (bytes "AUSDT-B")) ≠
      normalize_symbol (bytes "AUSDT-B") := by decide

/-- C5 (amended): normalisation is idempotent on exactly those inputs whose
normalised form does not itself end in a strippable suffix — i.e. does not end
in `"USDT"` while longer than 4 bytes, nor in `"USD"` while longer than 3. -/
theorem normalize_symbol_idempotent_of_no_residual_suffix (s : List Nat)
    (h1 : ¬(4 < (normalize_symbol s).length ∧
        (normalize_symbol s).drop ((normalize_symbol s).length - 4) = usdtS))
    (h2 : ¬(3 < (normalize_symbol s).length ∧
        (normalize_symbol s).drop ((normalize_symbol s).length - 3) = usdS)) :
    normalize_symbol (normalize_symbol s) = normalize_symbol s := by
  have hm := normalize_symbol_map_fixed s
  have hd := normalize_symbol_no_dash s
  show normalize_core ((normalize_symbol s).map cppToupper) = _
  rw [hm]
  unfold normalize_core
  rw [if_neg hd, if_neg h1, if_neg h2]

theorem normalize_symbol_idempotent_witness :
    normalize_symbol (normalize_symbol (bytes "BTC-USD")) =
      normalize_symbol (bytes "BTC-USD") :=
  normalize_symbol_idempotent_of_no_residual_suffix _ (by decide) (by decide)

/-- `TickerData` (types.hpp): strings as byte lists, prices and quantities as
rationals, wall-clock millisecond timestamp as an integer. The `enqueue_tsc`
instrumentation field plays no role in the claims. -/
structure TickerData where
  symbol : List Nat
  exchange : List Nat
  bid_price : ℚ
  ask_price : ℚ
  bid_quantity : ℚ
  ask_quantity : ℚ
  timestamp_ms : Int
  deriving DecidableEq, Inhabited

/-- `TickerData::age()`: wall-clock now minus the ticker's ingest timestamp.
The source samples the clock at each call; a single detection pass is
modelled with one clock value `now`. -/
def TickerData.age (t : TickerData) (now : Int) : Int := now - t.timestamp_ms

/-- `DataStatus` (types.hpp). -/
inductive DataStatus
  | LIVE
  | SLOW
  | STALE
  deriving DecidableEq

/-- `get_data_status` (types.hpp): fresher than 1000 ms is LIVE, fresher than
5000 ms is SLOW, anything older is STALE. -/
def get_data_status (now : Int) (t : TickerData) : DataStatus :=
  if t.age now < 1000 then DataStatus.LIVE
  else if t.age now < 5000 then DataStatus.SLOW
  else DataStatus.STALE

/-- `ArbitrageOpportunity` (types.hpp). -/
structure ArbitrageOpportunity where
  symbol : List Nat
  buy_exchange : List Nat
  sell_exchange : List Nat
  buy_price : ℚ
  sell_price : ℚ
  profit_bps : ℚ
  max_quantity : ℚ
  timestamp_ms : Int
  deriving DecidableEq

/-- Body of the double pair loop of `ArbitrageEngine::calculate_arbitrage`
(arbitrage_engine.cpp:158-255) for one pair `(ticker1, ticker2)` sharing the
normalised symbol `sym`: skip the pair when the age difference exceeds
500 ms, else evaluate both directions, emitting an opportunity whenever the
counterparty bid exceeds the buy-side ask and the profit reaches
`min_profit_bps`. The emission timestamp is the pass time `now`. -/
def pair_opportunities (min_profit_bps : ℚ) (now : Int) (sym : List Nat)
    (t1 t2 : TickerData) : List ArbitrageOpportunity :=
  if 500 < (t1.age now - t2.age now).natAbs then []
  else
    (if t1.ask_price < t2.bid_price then
      if min_profit_bps ≤ (t2.bid_price - t1.ask_price) / t1.ask_price * 10000 then
        [{ symbol := sym, buy_exchange := t1.exchange, sell_exchange := t2.exchange,
           buy_price := t1.ask_price, sell_price := t2.bid_price,
           profit_bps := (t2.bid_price - t1.ask_price) / t1.ask_price * 10000,
           max_quantity := min t1.ask_quantity t2.bid_quantity, timestamp_ms := now }]
      else []
    else []) ++
    (if t2.ask_price < t1.bid_price then
      if min_profit_bps ≤ (t1.bid_price - t2.ask_price) / t2.ask_price * 10000 then
        [{ symbol := sym, buy_exchange := t2.exchange, sell_exchange := t1.exchange,
           buy_price := t2.ask_price, sell_price := t1.bid_price,
           profit_bps := (t1.bid_price - t2.ask_price) / t2.ask_price * 10000,
           max_quantity := min t2.ask_quantity t1.bid_quantity, timestamp_ms := now }]
      else []
    else [])

/-- All pairs `(l[i], l[j])` with `i < j`, in the double-loop order of the
source. -/
def pairsOf {α : Type} : List α → List (α × α)
  | [] => []
  | x :: xs => xs.map (fun y => (x, y)) ++ pairsOf xs

/-- Append `t` to the group keyed `key`, creating the group if absent
(models `symbol_map[normalized].push_back(ticker)`). -/
def addToGroup (g : List (List Nat × List TickerData)) (key : List Nat)
    (t : TickerData) : List (List Nat × List TickerData) :=
  match g with
  | [] => [(key, [t])]
  | (k, ts) :: rest =>
    if k = key then (k, ts ++ [t]) :: rest else (k, ts) :: addToGroup rest key t

/-- The `symbol_map` of `calculate_arbitrage`: LIVE and SLOW tickers grouped
by normalised symbol. `std::unordered_map` iterates in an unspecified order;
the model fixes first-seen key order, on which no per-opportunity claim
depends. -/
def symbol_map (now : Int) (market : List TickerData) :
    List (List Nat × List TickerData) :=
  (market.filter fun t =>
      decide (get_data_status now t = DataStatus.LIVE ∨
        get_data_status now t = DataStatus.SLOW)).foldl
    (fun g t => addToGroup g (normalize_symbol t.symbol) t) []

/-- `ArbitrageEngine::calculate_arbitrage` (arbitrage_engine.cpp:132-263) as
the list of opportunities one pass emits, given the drained market data, the
pass wall-clock time `now` and the configured `min_profit_bps`. -/
def calculate_arbitrage (min_profit_bps : ℚ) (now : Int)
    (market : List TickerData) : List ArbitrageOpportunity :=
  (symbol_map now market).flatMap fun p =>
    if p.2.length < 2 then []
    else (pairsOf p.2).flatMap fun q =>
      pair_opportunities min_profit_bps now p.1 q.1 q.2

lemma pairsOf_mem {α : Type} {l : List α} {a b : α} (h : (a, b) ∈ pairsOf l) :
    a ∈ l ∧ b ∈ l := by
  induction l with
  | nil => cases h
  | cons x xs ih =>
    rcases List.mem_append.mp h with h' | h'
    · obtain ⟨y, hy, he⟩ := List.mem_map.mp h'
      cases he
      exact ⟨List.mem_cons_self _ _, List.mem_cons_of_mem _ hy⟩
    · have := ih h'
      exact ⟨List.mem_cons_of_mem _ this.1, List.mem_cons_of_mem _ this.2⟩

/-- Every ticker in every group satisfies `P` of the group key. -/
def GroupsOK (P : TickerData → List Nat → Prop)
    (g : List (List Nat × List TickerData)) : Prop :=
  ∀ p ∈ g, ∀ t ∈ p.2, P t p.1

lemma addToGroup_ok {P : TickerData → List Nat → Prop}
    {g : List (List Nat × List TickerData)} {key : List Nat} {t : TickerData}
    (hg : GroupsOK P g) (ht : P t key) : GroupsOK P (addToGroup g key t) := by
  induction g with
  | nil =>
    intro p hp t' ht'
    simp only [addToGroup, List.mem_singleton] at hp
    subst hp
    simp only [List.mem_singleton] at ht'
    subst ht'
    exact ht
  | cons q rest ih =>
    obtain ⟨k, ts⟩ := q
    intro p hp t' ht'
    simp only [addToGroup] at hp
    split at hp
    · next hk =>
      rcases List.mem_cons.mp hp with rfl | hp'
      · rcases List.mem_append.mp ht' with h' | h'
        · exact hg (k, ts) (List.mem_cons_self _ _) t' h'
        · simp only [List.mem_singleton] at h'
          subst h'
          subst hk
          exact ht
      · exact hg p (List.mem_cons_of_mem _ hp') t' ht'
    · rcases List.mem_cons.mp hp with rfl | hp'
      · exact hg (k, ts) (List.mem_cons_self _ _) t' ht'
      · exact ih (fun r hr => hg r (List.mem_cons_of_mem _ hr)) p hp' t' ht'

lemma foldl_addToGroup_ok {P : TickerData → List Nat → Prop} :
    ∀ (l : List TickerData) (g : List (List Nat × List TickerData)),
      GroupsOK P g → (∀ t ∈ l, P t (normalize_symbol t.symbol)) →
      GroupsOK P
        (l.foldl (fun g t => addToGroup g (normalize_symbol t.symbol) t) g) := by
  intro l
  induction l with
  | nil => intro g hg _; exact hg
  | cons a rest ih =>
    intro g hg hl
    simp only [List.foldl_cons]
    exact ih _ (addToGroup_ok hg (hl a (List.mem_cons_self _ _)))
      (fun t ht => hl t (List.mem_cons_of_mem _ ht))

lemma symbol_map_ok (now : Int) (market : List TickerData) :
    GroupsOK (fun t k => t ∈ market ∧ normalize_symbol t.symbol = k)
      (symbol_map now market) := by
  unfold symbol_map
  refine foldl_addToGroup_ok _ _ (fun p hp => absurd hp (List.not_mem_nil p)) ?_
  intro t ht
  exact ⟨List.mem_of_mem_filter ht, rfl⟩

/-- C1: every opportunity emitted by a detection pass comes from a buy-side
ticker `tb` and a sell-side ticker `ts` of the world view with
`sell_price > buy_price`, `profit_bps = (sell − buy) / buy × 10000`,
`profit_bps ≥ min_profit_bps`, `max_quantity = min (buy-side ask quantity)
(sell-side bid quantity)`, and an age difference of at most 500 ms between
the two tickers. -/
theorem calculate_arbitrage_invariants (min_profit_bps : ℚ) (now : Int)
    (market : List TickerData) (opp : ArbitrageOpportunity)
    (hm : opp ∈ calculate_arbitrage min_profit_bps now market) :
    ∃ tb ts, tb ∈ market ∧ ts ∈ market ∧
      opp.buy_exchange = tb.exchange ∧ opp.sell_exchange = ts.exchange ∧
      opp.buy_price = tb.ask_price ∧ opp.sell_price = ts.bid_price ∧
      opp.buy_price < opp.sell_price ∧
      opp.profit_bps = (opp.sell_price - opp.buy_price) / opp.buy_price * 10000 ∧
      min_profit_bps ≤ opp.profit_bps ∧
      opp.max_quantity = min tb.ask_quantity ts.bid_quantity ∧
      (tb.age now - ts.age now).natAbs ≤ 500 := by
  unfold calculate_arbitrage at hm
  obtain ⟨p, hp, hin⟩ := List.mem_flatMap.mp hm
  have hgrp := symbol_map_ok now market p hp
  by_cases hlen : p.2.length < 2
  · rw [if_pos hlen] at hin
    cases hin
  · rw [if_neg hlen] at hin
    obtain ⟨q, hq, hin2⟩ := List.mem_flatMap.mp hin
    obtain ⟨hq1, hq2⟩ := pairsOf_mem hq
    have h1m := (hgrp q.1 hq1).1
    have h2m := (hgrp q.2 hq2).1
    unfold pair_opportunities at hin2
    by_cases hage : 500 < (q.1.age now - q.2.age now).natAbs
    · rw [if_pos hage] at hin2
      cases hin2
    · rw [if_neg hage] at hin2
      have hage' : (q.1.age now - q.2.age now).natAbs ≤ 500 := Nat.le_of_not_lt hage
      rcases List.mem_append.mp hin2 with hdir | hdir
      · by_cases hc : q.1.ask_price < q.2.bid_price
        · rw [if_pos hc] at hdir
          by_cases hpf : min_profit_bps ≤
              (q.2.bid_price - q.1.ask_price) / q.1.ask_price * 10000
          · rw [if_pos hpf] at hdir
            simp only [List.mem_singleton] at hdir
            subst hdir
            exact ⟨q.1, q.2, h1m, h2m, rfl, rfl, rfl, rfl, hc, rfl, hpf, rfl, hage'⟩
          · rw [if_neg hpf] at hdir
            cases hdir
        · rw [if_neg hc] at hdir
          cases hdir
      · by_cases hc : q.2.ask_price < q.1.bid_price
        · rw [if_pos hc] at hdir
          by_cases hpf : min_profit_bps ≤
              (q.1.bid_price - q.2.ask_price) / q.2.ask_price * 10000
          · rw [if_pos hpf] at hdir
            simp only [List.mem_singleton] at hdir
            subst hdir
            refine ⟨q.2, q.1, h2m, h1m, rfl, rfl, rfl, rfl, hc, rfl, hpf, rfl, ?_⟩
            rw [← Int.natAbs_neg, neg_sub]
            exact hage'
          · rw [if_neg hpf] at hdir
            cases hdir
        · rw [if_neg hc] at hdir
          cases hdir

/-- Binance-style ticker (`"BTCUSDT"` at `"Binance"`) used in concrete
scenarios. -/
def tkX : TickerData :=
  ⟨[66, 84, 67, 85, 83, 68, 84], [66, 105, 110, 97, 110, 99, 101],
    100, 101, 2, 3, 0⟩

/-- Coinbase-style ticker (`"BTC-USD"` at `"Coinbase"`) used in concrete
scenarios. -/
def tkY : TickerData :=
  ⟨[66, 84, 67, 45, 85, 83, 68], [67, 111, 105, 110, 98, 97, 115, 101],
    102, 103, 2, 5, 0⟩

/-- The single opportunity the pass emits for `[tkX, tkY]`: buy Binance at
101, sell Coinbase at 102, profit 10000/101 bps, size min 3 2 = 2. -/
def oppXY : ArbitrageOpportunity :=
  ⟨[66, 84, 67], [66, 105, 110, 97, 110, 99, 101],
    [67, 111, 105, 110, 98, 97, 115, 101], 101, 102, 10000 / 101, 2, 0⟩

lemma calculate_arbitrage_concrete :
    calculate_arbitrage 5 0 [tkX, tkY] = [oppXY] := by
  norm_num [calculate_arbitrage, symbol_map, addToGroup, pairsOf,
    pair_opportunities, tkX, tkY, oppXY, normalize_symbol, normalize_core,
    get_data_status, TickerData.age, cppToupper, usdtS, usdS]

theorem calculate_arbitrage_invariants_witness :
    oppXY ∈ calculate_arbitrage 5 0 [tkX, tkY] ∧
      (∃ tb ts, tb ∈ [tkX, tkY] ∧ ts ∈ [tkX, tkY] ∧
        oppXY.buy_exchange = tb.exchange ∧ oppXY.sell_exchange = ts.exchange ∧
        oppXY.buy_price = tb.ask_price ∧ oppXY.sell_price = ts.bid_price ∧
        oppXY.buy_price < oppXY.sell_price ∧
        oppXY.profit_bps =
          (oppXY.sell_price - oppXY.buy_price) / oppXY.buy_price * 10000 ∧
        (5 : ℚ) ≤ oppXY.profit_bps ∧
        oppXY.max_quantity = min tb.ask_quantity ts.bid_quantity ∧
        (tb.age 0 - ts.age 0).natAbs ≤ 500) :=
  have hmem : oppXY ∈ calculate_arbitrage 5 0 [tkX, tkY] := by
    rw [calculate_arbitrage_concrete]
    exact List.mem_singleton.mpr rfl
  ⟨hmem, calculate_arbitrage_invariants 5 0 [tkX, tkY] oppXY hmem⟩

/-- Ticker with a crossed book (`bid 10 > ask 1`) at venue `"E1"`, symbol
`"FOO"`. -/
def tkP : TickerData := ⟨[70, 79, 79], [69, 49], 10, 1, 7, 8, 0⟩

/-- Ticker with a crossed book (`bid 10 > ask 1`) at venue `"E2"`, symbol
`"FOO"`. -/
def tkQ : TickerData := ⟨[70, 79, 79], [69, 50], 10, 1, 7, 8, 0⟩

/-- C6 counterexample: with only non-negativity assumed, both direction
branches can emit for the same pair — two tickers whose books are crossed
(`bid 10 > ask 1` on both venues) produce two opportunities from one pair
comparison. -/
theorem direction_branches_both_emit :
    (0 ≤ tkP.bid_price ∧ 0 ≤ tkP.ask_price ∧
        0 ≤ tkQ.bid_price ∧ 0 ≤ tkQ.ask_price) ∧
      (pair_opportunities 5 0 [70, 79, 79] tkP tkQ).length = 2 := by
  constructor
  · norm_num [tkP, tkQ]
  · norm_num [pair_opportunities, tkP, tkQ, TickerData.age]

/-- C6 (amended): at most one direction branch emits for a pair of tickers
whose books are not crossed (`bid ≤ ask` on each venue) — the condition every
real venue quote satisfies; non-negativity alone does not suffice. -/
theorem at_most_one_direction_emits (min_profit_bps : ℚ) (now : Int)
    (sym : List Nat) (t1 t2 : TickerData)
    (h1 : t1.bid_price ≤ t1.ask_price) (h2 : t2.bid_price ≤ t2.ask_price) :
    (pair_opportunities min_profit_bps now sym t1 t2).length ≤ 1 := by
  unfold pair_opportunities
  by_cases hage : 500 < (t1.age now - t2.age now).natAbs
  · rw [if_pos hage]
    simp
  · rw [if_neg hage]
    by_cases hc1 : t1.ask_price < t2.bid_price
    · by_cases hc2 : t2.ask_price < t1.bid_price
      · exact absurd (by linarith : t1.ask_price < t1.ask_price) (lt_irrefl _)
      · rw [if_pos hc1, if_neg hc2, List.append_nil]
        split_ifs <;> simp
    · rw [if_neg hc1, List.nil_append]
      split_ifs <;> simp

theorem at_most_one_direction_emits_witness :
    tkX.bid_price ≤ tkX.ask_price ∧ tkY.bid_price ≤ tkY.ask_price ∧
      (pair_opportunities 5 0 [66, 84, 67] tkX tkY).length ≤ 1 :=
  ⟨by norm_num [tkX], by norm_num [tkY],
    at_most_one_direction_emits 5 0 _ tkX tkY (by norm_num [tkX])
      (by norm_num [tkY])⟩

/-- Whether the pair body of `calculate_arbitrage` evaluates a division with
zero divisor for `(t1, t2)`: the pair passed the age-skew filter and one of
the two direction guards holds with the corresponding buy-side ask price
equal to zero (the guard `bid > ask` is the only check before dividing by
the ask). -/
def pair_div_by_zero (now : Int) (t1 t2 : TickerData) : Bool :=
  if 500 < (t1.age now - t2.age now).natAbs then false
  else
    decide ((t1.ask_price < t2.bid_price ∧ t1.ask_price = 0) ∨
      (t2.ask_price < t1.bid_price ∧ t2.ask_price = 0))

/-- Whether a detection pass over `market` reaches a division by zero. -/
def pass_div_by_zero (now : Int) (market : List TickerData) : Bool :=
  (symbol_map now market).any fun p =>
    if p.2.length < 2 then false
    else (pairsOf p.2).any fun q => pair_div_by_zero now q.1 q.2

/-- Ticker with zero ask price at venue `"E1"`, symbol `"FOO"`. -/
def tkZero : TickerData := ⟨[70, 79, 79], [69, 49], 0, 0, 1, 1, 0⟩

/-- Ticker with positive bid at venue `"E2"`, symbol `"FOO"`. -/
def tkOne : TickerData := ⟨[70, 79, 79], [69, 50], 1, 2, 1, 1, 0⟩

/-- C8 counterexample: the division computing `profit_bps` is guarded only by
the profitability comparison `bid > ask`, which does not exclude a zero
divisor — a world view holding a ticker with `ask = 0` against a counterparty
with `bid = 1` reaches the division with divisor zero. -/
theorem division_by_zero_reachable :
    pass_div_by_zero 0 [tkZero, tkOne] = true := by decide

/-- C8 (amended): the profit divisions are guarded only by the comparison
`sell bid > buy ask`; that guard excludes a zero divisor exactly when ask
prices are positive, so over any world view whose tickers all carry a
positive ask price, no division by zero is reached. -/
theorem no_division_by_zero_of_positive_asks (now : Int)
    (market : List TickerData) (h : ∀ t ∈ market, 0 < t.ask_price) :
    pass_div_by_zero now market = false := by
  unfold pass_div_by_zero
  rw [List.any_eq_false]
  intro p hp
  have hgrp := symbol_map_ok now market p hp
  simp only [Bool.not_eq_true]
  split_ifs with hlen
  · rfl
  · rw [List.any_eq_false]
    intro q hq
    obtain ⟨hq1, hq2⟩ := pairsOf_mem hq
    have ha1 : 0 < q.1.ask_price := h q.1 (hgrp q.1 hq1).1
    have ha2 : 0 < q.2.ask_price := h q.2 (hgrp q.2 hq2).1
    simp only [Bool.not_eq_true]
    unfold pair_div_by_zero
    split_ifs
    · rfl
    · simp only [decide_eq_false_iff_not]
      rintro (⟨_, hz⟩ | ⟨_, hz⟩)
      · exact absurd hz (ne_of_gt ha1)
      · exact absurd hz (ne_of_gt ha2)

theorem no_division_by_zero_witness :
    (∀ t ∈ [tkX, tkY], 0 < t.ask_price) ∧
      pass_div_by_zero 0 [tkX, tkY] = false := by
  have hpos : ∀ t ∈ [tkX, tkY], 0 < t.ask_price := by
    intro t ht
    rcases List.mem_cons.mp ht with rfl | ht
    · norm_num [tkX]
    · rcases List.mem_cons.mp ht with rfl | ht
      · norm_num [tkY]
      · cases ht
  exact ⟨hpos, no_division_by_zero_of_positive_asks 0 [tkX, tkY] hpos⟩

/-- Functional update of a `Nat`-indexed map at one index. -/
def upd {β : Type} (f : Nat → β) (i : Nat) (v : β) : Nat → β :=
  fun j => if j = i then v else f j

/-- State of `MPSCRingBuffer<T, Size>` (latency_test.cpp:137-260) with
`Size = 2 ^ m`: per-slot `sequence` counters and payloads (only slot indices
`< Size` are meaningful), the consumer index `head_` and the producer index
`tail_`. -/
structure Ring (α : Type) where
  seq : Nat → Nat
  data : Nat → α
  head : Nat
  tail : Nat

/-- Slot index of position `pos`: `pos & (Size - 1)` as in the source,
`Size` being a power of two. -/
def slotIdx (size pos : Nat) : Nat := pos &&& (size - 1)

lemma slotIdx_eq_mod (m pos : Nat) : slotIdx (2 ^ m) pos = pos % 2 ^ m :=
  Nat.and_pow_two_sub_one_eq_mod pos m

/-- `MPSCRingBuffer()` constructor: `head_ = tail_ = 0` and slot `i` holds
`sequence = i`. -/
def initRing (α : Type) [Inhabited α] : Ring α :=
  { seq := fun i => i, data := fun _ => default, head := 0, tail := 0 }

/-- `MPSCRingBuffer::try_push` (latency_test.cpp:157-208) under
interleaving-free (single-threaded) semantics: at `pos = tail_`, load the
`sequence` of slot `pos & (Size-1)`; when `seq == pos` the slot is free — the
CAS on `tail_` has no competitor and succeeds, the payload is written and the
slot published with `sequence = pos + 1`; otherwise (with no producer
in-flight the remaining case is `seq < pos`, cf. `ring_inv_full_seq`) the
ring is full and the push returns `false` leaving the state unchanged. -/
def tryPush {α : Type} (m : Nat) (s : Ring α) (x : α) : Bool × Ring α :=
  if s.seq (slotIdx (2 ^ m) s.tail) = s.tail then
    (true, { seq := upd s.seq (slotIdx (2 ^ m) s.tail) (s.tail + 1),
             data := upd s.data (slotIdx (2 ^ m) s.tail) x,
             head := s.head, tail := s.tail + 1 })
  else (false, s)

/-- `MPSCRingBuffer::try_pop` (latency_test.cpp:211-229): at `pos = head_`,
if `seq − (pos + 1) < 0` the ring is empty and nothing changes; otherwise
move the payload out, reclaim the slot with `sequence = pos + Size` and
advance `head_`. -/
def tryPop {α : Type} (m : Nat) (s : Ring α) : Option α × Ring α :=
  if s.head + 1 ≤ s.seq (slotIdx (2 ^ m) s.head) then
    (some (s.data (slotIdx (2 ^ m) s.head)),
      { seq := upd s.seq (slotIdx (2 ^ m) s.head) (s.head + 2 ^ m),
        data := s.data, head := s.head + 1, tail := s.tail })
  else (none, s)

/-- One producer/consumer operation against the ring. -/
inductive RingOp (α : Type)
  | push (x : α)
  | pop

/-- Run a sequence of operations from the freshly constructed ring
(an interleaving-free execution). -/
def runRing {α : Type} [Inhabited α] (m : Nat) (ops : List (RingOp α)) : Ring α :=
  ops.foldl
    (fun s op => match op with
      | RingOp.push x => (tryPush m s x).2
      | RingOp.pop => (tryPop m s).2)
    (initRing α)

/-- C2: the per-slot sequence discipline of the MPSC ring of capacity
`2 ^ m`: after construction slot `i` holds `sequence = i`; in any state
reachable by an interleaving-free sequence of `try_push`/`try_pop`
operations, a successful `try_push` claiming position `p = tail_` leaves
that slot holding the pushed payload with `sequence = p + 1`, and a
successful `try_pop` at position `p = head_` leaves the slot with
`sequence = p + Size`. -/
theorem mpsc_sequence_discipline {α : Type} [Inhabited α] (m : Nat)
    (ops : List (RingOp α)) (x : α) :
    (∀ i, i < 2 ^ m → (initRing α).seq i = i) ∧
    (∀ s', tryPush m (runRing m ops) x = (true, s') →
      s'.seq (slotIdx (2 ^ m) (runRing m ops).tail) = (runRing m ops).tail + 1 ∧
      s'.data (slotIdx (2 ^ m) (runRing m ops).tail) = x) ∧
    (∀ y s', tryPop m (runRing m ops) = (some y, s') →
      s'.seq (slotIdx (2 ^ m) (runRing m ops).head) =
        (runRing m ops).head + 2 ^ m) := by
  refine ⟨fun i _ => rfl, ?_, ?_⟩
  · intro s' h
    unfold tryPush at h
    split at h
    · injection h with h1 h2
      subst h2
      constructor <;> simp [upd]
    · injection h with h1 h2
      cases h1
  · intro y s' h
    unfold tryPop at h
    split at h
    · injection h with h1 h2
      subst h2
      simp [upd]
    · injection h with h1 h2
      cases h1

theorem mpsc_sequence_discipline_witness :
    (initRing Nat).seq 0 = 0 ∧
      ((tryPush 1 (runRing 1 [RingOp.push 5]) 7).2).seq
          (slotIdx (2 ^ 1) (runRing 1 [RingOp.push (5 : Nat)]).tail) =
        (runRing 1 [RingOp.push (5 : Nat)]).tail + 1 ∧
      ((tryPush 1 (runRing 1 [RingOp.push (5 : Nat)]) 7).2).data
          (slotIdx (2 ^ 1) (runRing 1 [RingOp.push (5 : Nat)]).tail) = 7 ∧
      ((tryPop 1 (runRing 1 [RingOp.push (5 : Nat)])).2).seq
          (slotIdx (2 ^ 1) (runRing 1 [RingOp.push (5 : Nat)]).head) =
        (runRing 1 [RingOp.push (5 : Nat)]).head + 2 ^ 1 := by
  have h := mpsc_sequence_discipline (α := Nat) 1 [RingOp.push 5] 7
  refine ⟨h.1 0 (by decide), (h.2.1 _ rfl).1, (h.2.1 _ rfl).2, h.2.2 5 _ rfl⟩

/-- Well-formedness of a ring state: `head_ ≤ tail_ ≤ head_ + Size`, and the
positions of the active window `[head, head + Size)` determine the slot
sequences — positions before `tail` are published (`sequence = pos + 1`),
positions from `tail` on are free (`sequence = pos`). This is the state
shape every interleaving-free execution maintains. -/
def RingInv {α : Type} (m : Nat) (s : Ring α) : Prop :=
  s.head ≤ s.tail ∧ s.tail ≤ s.head + 2 ^ m ∧
  ∀ j, j < 2 ^ m →
    s.seq (slotIdx (2 ^ m) (s.head + j)) =
      if s.head + j < s.tail then s.head + j + 1 else s.head + j

/-- In a well-formed full ring the sequence at the tail slot is `head + 1`:
strictly below the claiming position `tail`, i.e. the `diff < 0` branch of
the source — never the `diff > 0` retry branch, which justifies the
two-branch model of `tryPush`. -/
lemma ring_inv_full_seq {α : Type} (m : Nat) (s : Ring α)
    (hinv : RingInv m s) (hfull : s.tail = s.head + 2 ^ m) :
    s.seq (slotIdx (2 ^ m) s.tail) = s.head + 1 := by
  obtain ⟨h1, h2, h3⟩ := hinv
  have hpos : 0 < 2 ^ m := Nat.pos_pow_of_pos m (by omega)
  have h0 := h3 0 hpos
  rw [Nat.add_zero] at h0
  rw [slotIdx_eq_mod] at h0 ⊢
  rw [hfull, Nat.add_mod_right, h0, if_pos (by omega)]

/-- `TSCCalibrator::cycles_to_ns` (timing.hpp:42-44): the product
`cycles * 1000000000ULL` is computed in `uint64_t`, i.e. modulo `2 ^ 64`,
then divided by the calibrated frequency. -/
def cycles_to_ns (freq cycles : Nat) : Nat :=
  cycles * 1000000000 % 2 ^ 64 / freq

/-- `TSCCalibrator::ns_to_cycles` (timing.hpp:47-49): `ns * freq` in
`uint64_t`, then divided by `10^9`. -/
def ns_to_cycles (freq ns : Nat) : Nat :=
  ns * freq % 2 ^ 64 / 1000000000

/-- `QueueLatencyTracker::ExchangeStats` (queue_latency_tracker.hpp:26-74):
the atomic counters as plain naturals (the claims concern interleaving-free
executions), the two `SAMPLE_BUFFER_SIZE = 10000` sample rings as
`Nat`-indexed maps. `min_ns` starts at `UINT64_MAX = 2 ^ 64 − 1`. -/
structure ExchangeStats where
  name : List Nat
  count : Nat
  total_ns : Nat
  min_ns : Nat
  max_ns : Nat
  sample_index : Nat
  samples : Nat → Nat
  occupancy_samples : Nat → Nat

instance : Inhabited ExchangeStats :=
  ⟨⟨[], 0, 0, 2 ^ 64 - 1, 0, 0, fun _ => 0, fun _ => 0⟩⟩

/-- `ExchangeStats::record` (queue_latency_tracker.hpp:38-58): bump count and
total, fold the sample into min/max (the CAS loops compute exactly min/max
when uncontended), store sample and occupancy at `sample_index % 10000`
(the `fetch_add` returns the old index), advance `sample_index`. -/
def ExchangeStats.record (ex : ExchangeStats) (latency_ns occ : Nat) :
    ExchangeStats :=
  { ex with
    count := ex.count + 1,
    total_ns := ex.total_ns + latency_ns,
    min_ns := if latency_ns < ex.min_ns then latency_ns else ex.min_ns,
    max_ns := if ex.max_ns < latency_ns then latency_ns else ex.max_ns,
    sample_index := ex.sample_index + 1,
    samples := upd ex.samples (ex.sample_index % 10000) latency_ns,
    occupancy_samples := upd ex.occupancy_samples (ex.sample_index % 10000) occ }

/-- `QueueLatencyTracker` (queue_latency_tracker.hpp:14-332): the fixed
array `exchanges_[MAX_EXCHANGES]` (5 entries), the registered-entry count
`exchange_count_`, and the calibrated TSC frequency `record_operation` uses
for the cycle→ns conversion. -/
structure Tracker where
  freq : Nat
  exchange_count : Nat
  exchanges : List ExchangeStats

/-- `QueueLatencyTracker::register_exchange` (queue_latency_tracker.hpp:85-96):
return silently if the name is already registered; else, capacity permitting,
name the next free entry. (The returned index is unused by the modelled
callers.) -/
def register_exchange (tr : Tracker) (name : List Nat) : Tracker :=
  if (tr.exchanges.take tr.exchange_count).any (fun e => decide (e.name = name)) then tr
  else if tr.exchange_count < 5 then
    { tr with
      exchanges := tr.exchanges.set tr.exchange_count
        { tr.exchanges.getD tr.exchange_count default with name := name },
      exchange_count := tr.exchange_count + 1 }
  else tr

/-- `QueueLatencyTracker::get_exchange_index` (queue_latency_tracker.hpp:298-305):
linear scan over the registered entries; an unknown name falls back to
index 0. This lookup never inserts. -/
def get_exchange_index (tr : Tracker) (name : List Nat) : Nat :=
  if (tr.exchanges.take tr.exchange_count).findIdx (fun e => decide (e.name = name)) <
      (tr.exchanges.take tr.exchange_count).length then
    (tr.exchanges.take tr.exchange_count).findIdx (fun e => decide (e.name = name))
  else 0

/-- `QueueLatencyTracker::record_operation` (queue_latency_tracker.hpp:100-109):
reject zero timestamps and non-increasing timestamps; else convert the cycle
delta to nanoseconds and record it under `get_exchange_index(exchange)`. -/
def record_operation (tr : Tracker) (exchange : List Nat)
    (start_tsc end_tsc occ : Nat) : Tracker :=
  if start_tsc = 0 ∨ end_tsc = 0 then tr
  else if end_tsc ≤ start_tsc then tr
  else
    { tr with
      exchanges := tr.exchanges.set (get_exchange_index tr exchange)
        ((tr.exchanges.getD (get_exchange_index tr exchange) default).record
          (cycles_to_ns tr.freq (end_tsc - start_tsc)) occ) }

/-- The `QueueLatencyTracker()` constructor, with calibrated frequency
`freq`: five default-constructed entries, then the four known exchanges
pre-registered. -/
def init_tracker (freq : Nat) : Tracker :=
  register_exchange (register_exchange (register_exchange (register_exchange
    { freq := freq, exchange_count := 0, exchanges := List.replicate 5 default }
    (bytes "Binance")) (bytes "Coinbase")) (bytes "Kraken")) (bytes "Bybit")

/-- C9: an invalid measurement — zero start, zero end, or `end ≤ start` — is
silently discarded: `record_operation` returns the tracker unchanged, so
every field of every `ExchangeStats` entry is untouched, for every tracker
state and every exchange name. -/
theorem record_operation_discards_invalid (tr : Tracker) (exchange : List Nat)
    (start_tsc end_tsc occ : Nat)
    (h : start_tsc = 0 ∨ end_tsc = 0 ∨ end_tsc ≤ start_tsc) :
    record_operation tr exchange start_tsc end_tsc occ = tr := by
  unfold record_operation
  rcases h with h | h | h
  · rw [if_pos (Or.inl h)]
  · rw [if_pos (Or.inr h)]
  · by_cases h0 : start_tsc = 0 ∨ end_tsc = 0
    · rw [if_pos h0]
    · rw [if_neg h0, if_pos h]

theorem record_operation_discards_invalid_witness :
    record_operation (init_tracker 3000000000) (bytes "Binance") 0 5 2 =
      init_tracker 3000000000 :=
  record_operation_discards_invalid _ _ _ _ _ (Or.inl rfl)

/-- C10 counterexample: recording a valid sample under the previously unseen
name `"Gemini"`, with only four of the five table slots registered, creates
no `"Gemini"` entry — the sample is credited to entry 0 (`"Binance"`), whose
count becomes 1, and the registered count stays 4. -/
theorem record_operation_no_lazy_insert :
    ((record_operation (init_tracker 1) (bytes "Gemini") 1 3 0).exchanges.map
        (fun e => (e.name, e.count)) =
      [(bytes "Binance", 1), (bytes "Coinbase", 0), (bytes "Kraken", 0),
        (bytes "Bybit", 0), ([], 0)]) ∧
      (record_operation (init_tracker 1) (bytes "Gemini") 1 3 0).exchange_count
        = 4 := by decide

/-- C10 (amended): `record_operation` looks the producer up with the
non-inserting `get_exchange_index`; a valid sample under a name absent from
the registered entries is accounted under entry index 0 (the first
pre-registered exchange) and no new entry is created. -/
theorem record_operation_unknown_name_to_index_zero (tr : Tracker)
    (name : List Nat) (start_tsc end_tsc occ : Nat)
    (hname : ∀ e ∈ tr.exchanges.take tr.exchange_count, e.name ≠ name)
    (hs : 0 < start_tsc) (hlt : start_tsc < end_tsc) :
    record_operation tr name start_tsc end_tsc occ =
      { tr with
        exchanges := tr.exchanges.set 0
          ((tr.exchanges.getD 0 default).record
            (cycles_to_ns tr.freq (end_tsc - start_tsc)) occ) } := by
  have hidx : get_exchange_index tr name = 0 := by
    unfold get_exchange_index
    have hall : (tr.exchanges.take tr.exchange_count).findIdx
        (fun e => decide (e.name = name)) =
        (tr.exchanges.take tr.exchange_count).length := by
      rw [List.findIdx_eq_length]
      intro e he
      exact decide_eq_false (hname e he)
    rw [hall, if_neg (lt_irrefl _)]
  unfold record_operation
  rw [if_neg (by omega : ¬(start_tsc = 0 ∨ end_tsc = 0)),
    if_neg (by omega : ¬ end_tsc ≤ start_tsc), hidx]

theorem record_operation_unknown_name_witness :
    (∀ e ∈ (init_tracker 1).exchanges.take (init_tracker 1).exchange_count,
        e.name ≠ bytes "Gemini") ∧
      record_operation (init_tracker 1) (bytes "Gemini") 1 3 0 =
        { init_tracker 1 with
          exchanges := (init_tracker 1).exchanges.set 0
            (((init_tracker 1).exchanges.getD 0 default).record
              (cycles_to_ns (init_tracker 1).freq (3 - 1)) 0) } :=
  ⟨by decide,
    record_operation_unknown_name_to_index_zero (init_tracker 1)
      (bytes "Gemini") 1 3 0 (by decide) (by decide) (by decide)⟩

lemma ExchangeStats.record_count (ex : ExchangeStats) (l o : Nat) :
    (ex.record l o).count = ex.count + 1 := rfl

/-- `MPSCSharedQueue` (arbitrage_engine.hpp:357-404): the lock-free ring of
tickers, the relaxed drop counter `dropped_count_`, and the latency tracker
the push path records into. -/
structure PushState where
  ring : Ring TickerData
  dropped : Nat
  tracker : Tracker

/-- `MPSCSharedQueue::push` (arbitrage_engine.hpp:364-377): read the
occupancy estimate `size() = tail − head`, take the start TSC, `try_push`,
take the end TSC, bump `dropped_count_` when the push failed, and always
call `record_operation` — dropped pushes are recorded too. The two TSC
readings are inputs of the model. -/
def mpsc_push (m : Nat) (st : PushState) (t : TickerData)
    (start_tsc end_tsc : Nat) : Bool × PushState :=
  ((tryPush m st.ring t).1,
    { ring := (tryPush m st.ring t).2,
      dropped := if (tryPush m st.ring t).1 then st.dropped else st.dropped + 1,
      tracker := record_operation st.tracker t.exchange start_tsc end_tsc
        (st.ring.tail - st.ring.head) })

/-- Fold `mpsc_push` over a list of push attempts `(ticker, start, end)`,
collecting the per-push results. -/
def push_all (m : Nat) (st : PushState) :
    List (TickerData × Nat × Nat) → List Bool × PushState
  | [] => ([], st)
  | x :: rest =>
    ((mpsc_push m st x.1 x.2.1 x.2.2).1 ::
        (push_all m (mpsc_push m st x.1 x.2.1 x.2.2).2 rest).1,
      (push_all m (mpsc_push m st x.1 x.2.1 x.2.2).2 rest).2)

/-- Sum of the per-entry `count` fields of the tracker table. -/
def total_count (tr : Tracker) : Nat :=
  (tr.exchanges.map (fun e => e.count)).sum

/-- Fresh `MPSCSharedQueue` alongside the freshly constructed tracker. -/
def init_push_state (freq : Nat) : PushState :=
  { ring := initRing TickerData, dropped := 0, tracker := init_tracker freq }

lemma total_count_set :
    ∀ (l : List ExchangeStats) (i : Nat) (v : ExchangeStats), i < l.length →
      ((l.set i v).map (fun e => e.count)).sum + (l.getD i default).count =
        (l.map (fun e => e.count)).sum + v.count := by
  intro l
  induction l with
  | nil => intro i v hi; exact absurd hi (Nat.not_lt_zero i)
  | cons a t ih =>
    intro i v hi
    cases i with
    | zero =>
      simp only [List.set_cons_zero, List.map_cons, List.sum_cons,
        List.getD_cons_zero]
      omega
    | succ n =>
      simp only [List.set_cons_succ, List.map_cons, List.sum_cons,
        List.getD_cons_succ]
      have := ih n v (by simpa using hi)
      omega

lemma record_operation_exchanges_length (tr : Tracker) (name : List Nat)
    (s e occ : Nat) :
    (record_operation tr name s e occ).exchanges.length =
      tr.exchanges.length := by
  unfold record_operation
  split_ifs <;> simp [List.length_set]

/-- A valid recording adds exactly one to the total sample count — whichever
entry it lands on. -/
lemma record_operation_total (tr : Tracker) (name : List Nat) (s e occ : Nat)
    (hs : 0 < s) (hlt : s < e) (hwf : 0 < tr.exchanges.length) :
    total_count (record_operation tr name s e occ) = total_count tr + 1 := by
  have hi : get_exchange_index tr name < tr.exchanges.length := by
    unfold get_exchange_index
    split_ifs with h
    · have hlen : (tr.exchanges.take tr.exchange_count).length ≤
          tr.exchanges.length := by
        rw [List.length_take]
        omega
      omega
    · exact hwf
  have hx : (record_operation tr name s e occ).exchanges =
      tr.exchanges.set (get_exchange_index tr name)
        ((tr.exchanges.getD (get_exchange_index tr name) default).record
          (cycles_to_ns tr.freq (e - s)) occ) := by
    unfold record_operation
    rw [if_neg (by omega : ¬(s = 0 ∨ e = 0)), if_neg (by omega : ¬ e ≤ s)]
  unfold total_count
  rw [hx]
  have hset := total_count_set tr.exchanges (get_exchange_index tr name)
    ((tr.exchanges.getD (get_exchange_index tr name) default).record
      (cycles_to_ns tr.freq (e - s)) occ) hi
  rw [ExchangeStats.record_count] at hset
  omega

/-- Shape of the ring after `j` successful pushes from the constructed state
with no pops: `head = 0`, `tail = j`, published slots below `j`, free slots
from `j` on. -/
def ringShape {α : Type} (m j : Nat) (s : Ring α) : Prop :=
  s.head = 0 ∧ s.tail = j ∧
    ∀ i, i < 2 ^ m → s.seq i = if i < j then i + 1 else i

lemma initRing_shape {α : Type} [Inhabited α] (m : Nat) :
    ringShape m 0 (initRing α) := by
  refine ⟨rfl, rfl, fun i _ => ?_⟩
  rw [if_neg (Nat.not_lt_zero i)]
  rfl

lemma tryPush_shape_succeeds {α : Type} (m j : Nat) (s : Ring α) (x : α)
    (hj : j < 2 ^ m) (hs : ringShape m j s) :
    (tryPush m s x).1 = true ∧ ringShape m (j + 1) (tryPush m s x).2 := by
  obtain ⟨hh, ht, hseq⟩ := hs
  have hidx : slotIdx (2 ^ m) s.tail = j := by
    rw [slotIdx_eq_mod, ht, Nat.mod_eq_of_lt hj]
  have hcond : s.seq (slotIdx (2 ^ m) s.tail) = s.tail := by
    rw [hidx, hseq j hj, if_neg (lt_irrefl j), ht]
  unfold tryPush
  rw [if_pos hcond]
  refine ⟨rfl, hh, ?_, ?_⟩
  · show s.tail + 1 = j + 1
    omega
  · intro i hi
    show upd s.seq (slotIdx (2 ^ m) s.tail) (s.tail + 1) i = _
    rw [hidx, ht]
    by_cases hij : i = j
    · subst hij
      simp [upd]
    · simp only [upd, if_neg hij]
      rw [hseq i hi]
      split_ifs <;> omega

lemma tryPush_full_fails {α : Type} (m : Nat) (s : Ring α) (x : α)
    (hm : 1 ≤ m) (hs : ringShape m (2 ^ m) s) : tryPush m s x = (false, s) := by
  obtain ⟨hh, ht, hseq⟩ := hs
  have h2 : 1 < 2 ^ m := by
    have : 2 ^ 1 ≤ 2 ^ m := Nat.pow_le_pow_right (by omega) hm
    omega
  have hidx : slotIdx (2 ^ m) s.tail = 0 := by
    rw [slotIdx_eq_mod, ht, Nat.mod_self]
  have hcond : s.seq (slotIdx (2 ^ m) s.tail) ≠ s.tail := by
    rw [hidx, hseq 0 (by omega), if_pos (by omega), ht]
    omega
  unfold tryPush
  rw [if_neg hcond]

lemma push_all_append (m : Nat) :
    ∀ (a b : List (TickerData × Nat × Nat)) (st : PushState),
      push_all m st (a ++ b) =
        ((push_all m st a).1 ++ (push_all m (push_all m st a).2 b).1,
          (push_all m (push_all m st a).2 b).2) := by
  intro a
  induction a with
  | nil => intro b st; rfl
  | cons x rest ih =>
    intro b st
    show push_all m st (x :: (rest ++ b)) = _
    simp only [push_all, ih]
    rfl

/-- Pushing while there is room: with `j + l.length ≤ Size` every push
succeeds, the drop counter is untouched, and each attempt records one
tracker sample. -/
lemma push_all_succeeds (m : Nat) :
    ∀ (l : List (TickerData × Nat × Nat)) (st : PushState) (j : Nat),
      j + l.length ≤ 2 ^ m → ringShape m j st.ring →
      (∀ x ∈ l, 0 < x.2.1 ∧ x.2.1 < x.2.2) →
      0 < st.tracker.exchanges.length →
      (push_all m st l).1 = List.replicate l.length true ∧
      ringShape m (j + l.length) (push_all m st l).2.ring ∧
      (push_all m st l).2.dropped = st.dropped ∧
      total_count (push_all m st l).2.tracker =
        total_count st.tracker + l.length ∧
      (push_all m st l).2.tracker.exchanges.length =
        st.tracker.exchanges.length := by
  intro l
  induction l with
  | nil =>
    intro st j hj hshape hval hwf
    exact ⟨rfl, by simpa using hshape, rfl, by simp [push_all], rfl⟩
  | cons x rest ih =>
    intro st j hj hshape hval hwf
    simp only [List.length_cons] at hj
    have hjlt : j < 2 ^ m := by omega
    obtain ⟨hok, hshape'⟩ := tryPush_shape_succeeds m j st.ring x.1 hjlt hshape
    have hvx := hval x (List.mem_cons_self _ _)
    have hstep : mpsc_push m st x.1 x.2.1 x.2.2 =
        (true, { ring := (tryPush m st.ring x.1).2, dropped := st.dropped,
                 tracker := record_operation st.tracker x.1.exchange x.2.1
                   x.2.2 (st.ring.tail - st.ring.head) }) := by
      unfold mpsc_push
      rw [hok, if_pos rfl]
    obtain ⟨ih1, ih2, ih3, ih4, ih5⟩ := ih
      { ring := (tryPush m st.ring x.1).2, dropped := st.dropped,
        tracker := record_operation st.tracker x.1.exchange x.2.1 x.2.2
          (st.ring.tail - st.ring.head) }
      (j + 1) (by omega) hshape'
      (fun y hy => hval y (List.mem_cons_of_mem _ hy))
      (by rw [record_operation_exchanges_length]; exact hwf)
    have htot := record_operation_total st.tracker x.1.exchange x.2.1 x.2.2
      (st.ring.tail - st.ring.head) hvx.1 hvx.2 hwf
    have hrlen := record_operation_exchanges_length st.tracker x.1.exchange
      x.2.1 x.2.2 (st.ring.tail - st.ring.head)
    refine ⟨?_, ?_, ?_, ?_, ?_⟩
    · simp only [push_all, hstep, ih1, List.length_cons, List.replicate_succ]
    · simp only [push_all, hstep, List.length_cons]
      have hje : j + (rest.length + 1) = j + 1 + rest.length := by omega
      rw [hje]
      exact ih2
    · simp only [push_all, hstep, ih3]
    · simp only [push_all, hstep, ih4, htot, List.length_cons]
      omega
    · simp only [push_all, hstep, ih5, hrlen]

/-- Pushing into a full ring: every push fails, the ring is untouched, the
drop counter rises by one per attempt, and each attempt still records one
tracker sample. -/
lemma push_all_full_fails (m : Nat) (hm : 1 ≤ m) :
    ∀ (l : List (TickerData × Nat × Nat)) (st : PushState),
      ringShape m (2 ^ m) st.ring →
      (∀ x ∈ l, 0 < x.2.1 ∧ x.2.1 < x.2.2) →
      0 < st.tracker.exchanges.length →
      (push_all m st l).1 = List.replicate l.length false ∧
      (push_all m st l).2.ring = st.ring ∧
      (push_all m st l).2.dropped = st.dropped + l.length ∧
      total_count (push_all m st l).2.tracker =
        total_count st.tracker + l.length := by
  intro l
  induction l with
  | nil =>
    intro st hshape hval hwf
    exact ⟨rfl, rfl, rfl, by simp [push_all]⟩
  | cons x rest ih =>
    intro st hshape hval hwf
    have hfail := tryPush_full_fails m st.ring x.1 hm hshape
    have hvx := hval x (List.mem_cons_self _ _)
    have hstep : mpsc_push m st x.1 x.2.1 x.2.2 =
        (false, { ring := st.ring, dropped := st.dropped + 1,
                  tracker := record_operation st.tracker x.1.exchange x.2.1
                    x.2.2 (st.ring.tail - st.ring.head) }) := by
      unfold mpsc_push
      rw [hfail]
      rfl
    obtain ⟨ih1, ih2, ih3, ih4⟩ := ih
      { ring := st.ring, dropped := st.dropped + 1,
        tracker := record_operation st.tracker x.1.exchange x.2.1 x.2.2
          (st.ring.tail - st.ring.head) }
      hshape
      (fun y hy => hval y (List.mem_cons_of_mem _ hy))
      (by rw [record_operation_exchanges_length]; exact hwf)
    have htot := record_operation_total st.tracker x.1.exchange x.2.1 x.2.2
      (st.ring.tail - st.ring.head) hvx.1 hvx.2 hwf
    refine ⟨?_, ?_, ?_, ?_⟩
    · simp only [push_all, hstep, ih1, List.length_cons, List.replicate_succ]
    · simp only [push_all, hstep, ih2]
    · simp only [push_all, hstep, ih3, List.length_cons]
      omega
    · simp only [push_all, hstep, ih4, htot, List.length_cons]
      omega

lemma init_tracker_exchanges_length (freq : Nat) :
    (init_tracker freq).exchanges.length = 5 := rfl

lemma init_tracker_total_count (freq : Nat) :
    total_count (init_tracker freq) = 0 := rfl

/-- C3: drop semantics of the lock-free transport. First conjunct (general
full-ring behaviour): on any well-formed full ring state, `push` fails,
leaves the ring unchanged, increments the drop counter by exactly one, and
still records the attempt. Remaining conjuncts (single-producer scenario):
pushing `C + k` quotes with valid timestamps into an initially empty ring of
capacity `C = 2 ^ m` without draining yields exactly `C` `Enqueued` (`true`)
and `k` `Dropped` (`false`) results, a drop counter reading `k`, and a
tracker whose total sample count reflects all `C + k` push attempts. -/
theorem mpsc_transport_drop_semantics (m k freq : Nat)
    (l : List (TickerData × Nat × Nat)) (hm : 1 ≤ m)
    (hlen : l.length = 2 ^ m + k)
    (hval : ∀ x ∈ l, 0 < x.2.1 ∧ x.2.1 < x.2.2) :
    (∀ (st : PushState) (t : TickerData) (a b : Nat),
        RingInv m st.ring → st.ring.tail = st.ring.head + 2 ^ m →
        mpsc_push m st t a b =
          (false, { ring := st.ring, dropped := st.dropped + 1,
                    tracker := record_operation st.tracker t.exchange a b
                      (st.ring.tail - st.ring.head) })) ∧
    (push_all m (init_push_state freq) l).1.count true = 2 ^ m ∧
    (push_all m (init_push_state freq) l).1.count false = k ∧
    (push_all m (init_push_state freq) l).2.dropped = k ∧
    total_count (push_all m (init_push_state freq) l).2.tracker =
      2 ^ m + k := by
  have h2 : 1 < 2 ^ m := by
    have : 2 ^ 1 ≤ 2 ^ m := Nat.pow_le_pow_right (by omega) hm
    omega
  constructor
  · intro st t a b hinv hfull
    have hseqfull := ring_inv_full_seq m st.ring hinv hfull
    have hcond : st.ring.seq (slotIdx (2 ^ m) st.ring.tail) ≠ st.ring.tail := by
      rw [hseqfull, hfull]
      omega
    have hfail : tryPush m st.ring t = (false, st.ring) := by
      unfold tryPush
      rw [if_neg hcond]
    unfold mpsc_push
    rw [hfail]
    rfl
  · have hlt : (l.take (2 ^ m)).length = 2 ^ m := by
      rw [List.length_take]
      omega
    have hld : (l.drop (2 ^ m)).length = k := by
      rw [List.length_drop]
      omega
    have hwf0 : 0 < (init_push_state freq).tracker.exchanges.length := by
      show 0 < (init_tracker freq).exchanges.length
      rw [init_tracker_exchanges_length]
      omega
    obtain ⟨ha1, ha2, ha3, ha4, ha5⟩ := push_all_succeeds m (l.take (2 ^ m))
      (init_push_state freq) 0 (by omega) (initRing_shape m)
      (fun x hx => hval x (List.mem_of_mem_take hx)) hwf0
    rw [hlt] at ha1 ha2 ha4
    rw [Nat.zero_add] at ha2
    obtain ⟨hb1, hb2, hb3, hb4⟩ := push_all_full_fails m hm (l.drop (2 ^ m))
      (push_all m (init_push_state freq) (l.take (2 ^ m))).2 ha2
      (fun x hx => hval x (List.mem_of_mem_drop hx))
      (by rw [ha5]; exact hwf0)
    rw [hld] at hb1 hb3 hb4
    have hsplit : l = l.take (2 ^ m) ++ l.drop (2 ^ m) :=
      (List.take_append_drop _ _).symm
    have happ := push_all_append m (l.take (2 ^ m)) (l.drop (2 ^ m))
      (init_push_state freq)
    have hfst : (push_all m (init_push_state freq) l).1 =
        List.replicate (2 ^ m) true ++ List.replicate k false := by
      rw [hsplit, happ]
      show (push_all m (init_push_state freq) (l.take (2 ^ m))).1 ++
          (push_all m (push_all m (init_push_state freq) (l.take (2 ^ m))).2
            (l.drop (2 ^ m))).1 = _
      rw [ha1, hb1]
    have hsnd : (push_all m (init_push_state freq) l).2 =
        (push_all m (push_all m (init_push_state freq) (l.take (2 ^ m))).2
          (l.drop (2 ^ m))).2 := by
      conv_lhs => rw [hsplit, happ]
    refine ⟨?_, ?_, ?_, ?_⟩
    · rw [hfst, List.count_append]
      simp [List.count_replicate]
    · rw [hfst, List.count_append]
      simp [List.count_replicate]
    · rw [hsnd, hb3, ha3]
      simp [init_push_state]
    · rw [hsnd, hb4, ha4]
      have h0 : total_count (init_push_state freq).tracker = 0 :=
        init_tracker_total_count freq
      omega

instance ringInvDecidable {α : Type} (m : Nat) (s : Ring α) :
    Decidable (RingInv m s) := by
  unfold RingInv
  exact inferInstance

/-- Six identical push attempts with valid timestamps. -/
def pushList (n : Nat) : List (TickerData × Nat × Nat) :=
  List.replicate n (tkX, 1, 2)

/-- The transport state after filling a capacity-4 ring with four pushes. -/
def fullPushState : PushState :=
  (push_all 2 (init_push_state 7) (pushList 4)).2

theorem mpsc_transport_drop_semantics_witness :
    mpsc_push 2 fullPushState tkX 1 2 =
      (false, { ring := fullPushState.ring,
                dropped := fullPushState.dropped + 1,
                tracker := record_operation fullPushState.tracker tkX.exchange
                  1 2 (fullPushState.ring.tail - fullPushState.ring.head) }) ∧
      (push_all 2 (init_push_state 7) (pushList 6)).1.count true = 2 ^ 2 ∧
      (push_all 2 (init_push_state 7) (pushList 6)).1.count false = 2 ∧
      (push_all 2 (init_push_state 7) (pushList 6)).2.dropped = 2 ∧
      total_count (push_all 2 (init_push_state 7) (pushList 6)).2.tracker =
        2 ^ 2 + 2 := by
  have h := mpsc_transport_drop_semantics 2 2 7 (pushList 6) (by decide)
    (by decide) (by decide)
  exact ⟨h.1 fullPushState tkX 1 2 (by decide) (by decide),
    h.2.1, h.2.2.1, h.2.2.2.1, h.2.2.2.2⟩

/-- C7 counterexample: the conversion is plain 64-bit arithmetic, not
128-bit. At a calibrated frequency of 3 GHz (within the claimed ~5 GHz
bound) and a cycle count of one hour (3600 s × 3 GHz, within the claimed
bound), the product `cycles × 10⁹` wraps modulo `2 ^ 64` and
`cycles_to_ns` differs from the exact mathematical value. -/
theorem cycles_to_ns_overflow_counterexample :
    (3000000000 : Nat) ≤ 5000000000 ∧
      (10800000000000 : Nat) ≤ 3600 * 3000000000 ∧
      cycles_to_ns 3000000000 10800000000000 ≠
        10800000000000 * 1000000000 / 3000000000 := by decide

/-- C7 (amended): the conversions are exact precisely while the 64-bit
product does not overflow — `cycles_to_ns` whenever `cycles × 10⁹ < 2 ^ 64`
(at 3 GHz roughly 6 s worth of cycles, far below an hour) and `ns_to_cycles`
whenever `ns × freq < 2 ^ 64`; past that bound the product wraps. -/
theorem timebase_conversions_exact (freq cycles ns : Nat)
    (hc : cycles * 1000000000 < 2 ^ 64) (hn : ns * freq < 2 ^ 64) :
    cycles_to_ns freq cycles = cycles * 1000000000 / freq ∧
      ns_to_cycles freq ns = ns * freq / 1000000000 := by
  unfold cycles_to_ns ns_to_cycles
  rw [Nat.mod_eq_of_lt hc, Nat.mod_eq_of_lt hn]
  exact ⟨rfl, rfl⟩

theorem timebase_conversions_exact_witness :
    (3000000000 : Nat) * 1000000000 < 2 ^ 64 ∧
      (1000000000 : Nat) * 3000000000 < 2 ^ 64 ∧
      cycles_to_ns 3000000000 3000000000 =
        3000000000 * 1000000000 / 3000000000 ∧
      ns_to_cycles 3000000000 1000000000 =
        1000000000 * 3000000000 / 1000000000 :=
  ⟨by decide, by decide,
    (timebase_conversions_exact 3000000000 3000000000 1000000000 (by decide)
      (by decide)).1,
    (timebase_conversions_exact 3000000000 3000000000 1000000000 (by decide)
      (by decide)).2⟩
